import Mathlib

/-!
Verification of the Tilck kernel's VFS dispatch layer (src/kernel/fs/vfs.c)
and intrusive AVL insertion engine (src/kernel/bintree/avl_insert.c.h),
against the repository's natural-language specification.

C strings are embedded as lists of byte values (`List Nat`); a well-formed
C string contains no 0 byte, and reading at or past the end yields the
terminating 0.  Machine integers that matter (the `u32` device-id counter)
are embedded as `Nat` with explicit reduction mod 2^32.  Fatal assertion
failures are embedded as `none` results.
-/

namespace Tilck

universe u

/-! ### C strings and mount resolution (vfs.c lines 15-110) -/

/-- Byte at index `i` of a C string; at or past the end this is the NUL
terminator. -/
def cAt (s : List Nat) (i : Nat) : Nat := s.getD i 0

/-- A well-formed C string: no embedded NUL byte. -/
def validStr (s : List Nat) : Prop := ∀ c ∈ s, c ≠ 0

/-- Length of the common prefix of two strings: the loop of
`check_mountpoint_match` (vfs.c lines 31-37), which scans up to the length
of the shorter string and stops at the first mismatch. -/
def matchLen : List Nat → List Nat → Nat
  | a :: as, b :: bs => if a = b then matchLen as bs + 1 else 0
  | _, _ => 0

/-- `check_mountpoint_match` (vfs.c lines 20-71); byte 47 is `/`.
Returns 0 on non-match, otherwise the matched length. -/
def check_mountpoint_match (mp path : List Nat) : Nat :=
  let m := matchLen mp path
  if cAt mp m ≠ 0 then
    if cAt mp m = 47 ∧ cAt mp (m + 1) = 0 ∧ cAt path m = 0 then m
    else 0
  else if cAt path (m - 1) ≠ 47 ∧ cAt path (m - 1) ≠ 0 then 0
  else m

/-- A registered mountpoint: its absolute path and the mounted filesystem,
identified here by a numeric id. -/
structure Mountpoint where
  path : List Nat
  fs : Nat

/-- One step of the best-match loop of `vfs_open` (vfs.c lines 94-102):
a mountpoint replaces the current best exactly when its match length is
strictly greater. -/
def resolveStep (p : List Nat) (acc : Option Mountpoint × Nat) (mp : Mountpoint) :
    Option Mountpoint × Nat :=
  let len := check_mountpoint_match mp.path p
  if acc.2 < len then (some mp, len) else acc

/-- Mount resolution as performed by `vfs_open` (vfs.c lines 94-110):
scan all mountpoints keeping the longest match, fail with none (-ENOENT)
if nothing matched, otherwise return the filesystem together with the
remainder path handed to the filesystem's open hook
(`fs_path = (best_match_len < pl) ? path + best_match_len - 1 : "/"`). -/
def vfs_resolve (mounts : List Mountpoint) (p : List Nat) : Option (Nat × List Nat) :=
  let best := mounts.foldl (resolveStep p) (none, 0)
  match best.1 with
  | none => none
  | some mp => some (mp.fs, if best.2 < p.length then p.drop (best.2 - 1) else [47])

/-- Byte-code list of a string literal. -/
def strChars (s : String) : List Nat := s.toList.map Char.toNat

/-! ### Intrusive AVL engine (avl_insert.c.h)

The tree of host objects is embedded as an inductive tree; the intrusive
node header of a host object (its left/right child object references) is
exactly the two subtrees of its tree node.  `bintree_insert` follows
`bintree_insert_internal`: walk down comparing, fail on comparator
equality, attach at the empty slot, then rebalance every node of the
recorded path bottom-up (the explicit stack of the C code simulates
exactly the unwinding of this structural recursion, as its own comment
states).  The two C variants (value comparator / pointer-field comparator)
differ only in the comparison function, which is a parameter here. -/

inductive Tree (α : Type u) where
  | leaf : Tree α
  | node : Tree α → α → Tree α → Tree α

variable {α : Type u}

/-- Height of a tree of host objects (leaf = 0). -/
def height : Tree α → Nat
  | .leaf => 0
  | .node l _ r => max (height l) (height r) + 1

/-- Modelled from the spec: the `BALANCE` macro applied at each node of the
insertion path is not part of the sources under src/ (only its call site in
avl_insert.c.h is); per the spec it applies "standard AVL rotation rules —
single or double rotation chosen by the sign of the deeper subtree's own
balance factor, applied exactly at nodes whose balance factor has left the
{−1,0,1} range". -/
def balance : Tree α → Tree α
  | .leaf => .leaf
  | .node l x r =>
    if height r + 2 ≤ height l then
      match l with
      | .leaf => .node .leaf x r
      | .node ll lx lr =>
        if height lr ≤ height ll then
          .node ll lx (.node lr x r)
        else
          match lr with
          | .leaf => .node (.node ll lx .leaf) x r
          | .node lrl lrx lrr => .node (.node ll lx lrl) lrx (.node lrr x r)
    else if height l + 2 ≤ height r then
      match r with
      | .leaf => .node l x .leaf
      | .node rl rx rr =>
        if height rl ≤ height rr then
          .node (.node l x rl) rx rr
        else
          match rl with
          | .leaf => .node l x (.node .leaf rx rr)
          | .node rll rlx rlr => .node (.node l x rll) rlx (.node rlr rx rr)
    else .node l x r

/-- `bintree_insert_internal` (avl_insert.c.h lines 10-65): returns the new
tree and the success flag (`false` = comparator reported equality, tree
unchanged).  `cmp obj x` plays the role of `CMP(obj, *root_obj_ref)`. -/
def bintree_insert (cmp : α → α → Int) (obj : α) : Tree α → Tree α × Bool
  | .leaf => (.node .leaf obj .leaf, true)
  | .node l x r =>
    let c := cmp obj x
    if c = 0 then (.node l x r, false)
    else if c < 0 then
      let p := bintree_insert cmp obj l
      if p.2 then (balance (.node p.1 x r), true) else (.node p.1 x r, false)
    else
      let p := bintree_insert cmp obj r
      if p.2 then (balance (.node l x p.1), true) else (.node l x p.1, false)

/-- The AVL shape invariant, as a decidable check. -/
def isAvl : Tree α → Bool
  | .leaf => true
  | .node l _ r =>
    decide (height l ≤ height r + 1) && decide (height r ≤ height l + 1) && isAvl l && isAvl r

/-- Balance factor of a node: height of right subtree minus height of left
subtree (0 for the empty tree). -/
def balanceFactor : Tree α → Int
  | .leaf => 0
  | .node l _ r => (height r : Int) - (height l : Int)

/-- Every node of the tree has balance factor in {-1, 0, +1}. -/
def allNodesBalanced : Tree α → Prop
  | .leaf => True
  | .node l x r =>
    (balanceFactor (Tree.node l x r) = -1 ∨ balanceFactor (Tree.node l x r) = 0 ∨
      balanceFactor (Tree.node l x r) = 1) ∧ allNodesBalanced l ∧ allNodesBalanced r

/-- In-order list of host objects of the tree. -/
def elems : Tree α → List α
  | .leaf => []
  | .node l x r => elems l ++ x :: elems r

/-- Number of nodes of the tree. -/
def size (t : Tree α) : Nat := (elems t).length

/-- Search-tree invariant relative to a three-way comparator. -/
def isBst (cmp : α → α → Int) : Tree α → Prop
  | .leaf => True
  | .node l x r =>
    (∀ y ∈ elems l, cmp y x < 0) ∧ (∀ y ∈ elems r, 0 < cmp y x) ∧ isBst cmp l ∧ isBst cmp r

/-- Insert a whole list of objects, left to right, keeping the tree of the
failed insertions unchanged (as `bintree_insert` itself guarantees). -/
def insertList (cmp : α → α → Int) : List α → Tree α → Tree α
  | [], t => t
  | x :: xs, t => insertList cmp xs (bintree_insert cmp x t).1

/-! ### VFS dispatch: handles, hooks, locks (vfs.c lines 171-443)

A file handle's operation table is embedded with each optional hook as an
`Option` holding the result that hook would return, and each optional lock
hook as a `Bool` presence flag.  Each dispatch function returns its result
together with the list of observable events it performs (lock operations
and hook invocations, in order); a fatal `ASSERT` failure is `none`. -/

/-- Observable events of a dispatch call: filesystem-wide lock operations,
per-handle lock hooks, and filesystem hook invocations. -/
inductive Ev where
  | fsEx | fsExU | fsSh | fsShU
  | hEx | hExU | hSh | hShU
  | hookRead | hookWrite | hookSeek | hookIoctl | hookFcntl
  | hookGetdents | hookReadReady | hookWriteReady | hookExceptReady
  deriving DecidableEq

/-- Per-handle operation table (`file_ops` of `fs_handle_base`).  An I/O
hook is `some r` when present (returning `r`); a lock hook is `true` when
present; a condition getter is `some k` when present (returning kcond `k`,
itself optional since the hook may return NULL). -/
structure FOps where
  read : Option Int
  write : Option Int
  seek : Option Int
  ioctl : Option Int
  fcntl : Option Int
  exlock : Bool
  exunlock : Bool
  shlock : Bool
  shunlock : Bool
  read_ready : Option Bool
  write_ready : Option Bool
  except_ready : Option Bool
  get_rready_cond : Option (Option Nat)
  get_wready_cond : Option (Option Nat)
  get_except_cond : Option (Option Nat)

/-- `vfs_exlock` (vfs.c lines 245-256): invoke the per-handle hook when
present; otherwise assert the paired unlock hook is absent too and fall
back to the filesystem-wide exclusive lock. -/
def vfs_exlock (f : FOps) : Option (List Ev) :=
  if f.exlock then some [Ev.hEx]
  else if f.exunlock then none
  else some [Ev.fsEx]

/-- `vfs_exunlock` (vfs.c lines 258-269). -/
def vfs_exunlock (f : FOps) : Option (List Ev) :=
  if f.exunlock then some [Ev.hExU]
  else if f.exlock then none
  else some [Ev.fsExU]

/-- `vfs_shlock` (vfs.c lines 271-282). -/
def vfs_shlock (f : FOps) : Option (List Ev) :=
  if f.shlock then some [Ev.hSh]
  else if f.shunlock then none
  else some [Ev.fsSh]

/-- `vfs_shunlock` (vfs.c lines 284-295). -/
def vfs_shunlock (f : FOps) : Option (List Ev) :=
  if f.shunlock then some [Ev.hShU]
  else if f.shlock then none
  else some [Ev.fsShU]

/-- `vfs_read` (vfs.c lines 171-185): -EINVAL (= -22) without any hook call
when the read hook is missing, otherwise the hook's result under the shared
lock. -/
def vfs_read (f : FOps) : Option (Int × List Ev) :=
  match f.read with
  | none => some (-22, [])
  | some res => do
    let l ← vfs_shlock f
    let u ← vfs_shunlock f
    pure (res, l ++ Ev.hookRead :: u)

/-- `vfs_write` (vfs.c lines 187-201): -EINVAL when the write hook is
missing, otherwise the hook's result under the exclusive lock. -/
def vfs_write (f : FOps) : Option (Int × List Ev) :=
  match f.write with
  | none => some (-22, [])
  | some res => do
    let l ← vfs_exlock f
    let u ← vfs_exunlock f
    pure (res, l ++ Ev.hookWrite :: u)

/-- `vfs_seek` (vfs.c lines 203-212): -ESPIPE (= -29) when the seek hook is
missing, otherwise a direct unlocked pass-through. -/
def vfs_seek (f : FOps) : Int × List Ev :=
  match f.seek with
  | none => (-29, [])
  | some res => (res, [Ev.hookSeek])

/-- `vfs_ioctl` (vfs.c lines 214-228): -ENOTTY (= -25) when the ioctl hook
is missing, otherwise the hook's result under the exclusive lock. -/
def vfs_ioctl (f : FOps) : Option (Int × List Ev) :=
  match f.ioctl with
  | none => some (-25, [])
  | some res => do
    let l ← vfs_exlock f
    let u ← vfs_exunlock f
    pure (res, l ++ Ev.hookIoctl :: u)

/-- `vfs_fcntl` (vfs.c lines 346-360): -EINVAL when the fcntl hook is
missing, otherwise the hook's result under the exclusive lock. -/
def vfs_fcntl (f : FOps) : Option (Int × List Ev) :=
  match f.fcntl with
  | none => some (-22, [])
  | some res => do
    let l ← vfs_exlock f
    let u ← vfs_exunlock f
    pure (res, l ++ Ev.hookFcntl :: u)

/-- `vfs_getdents64` (vfs.c lines 329-344): asserts the filesystem-level
getdents hook (`gd`, carrying its result) is present, and runs it between
`vfs_fs_shlock(hb->fs)` and `vfs_fs_shunlock(hb->fs)` — the filesystem-wide
shared lock, taken without consulting the handle's own lock hooks. -/
def vfs_getdents64 (f : FOps) (gd : Option Int) : Option (Int × List Ev) :=
  match gd with
  | none => none
  | some rc => some (rc, [Ev.fsSh, Ev.hookGetdents, Ev.fsShU])

/-- `vfs_read_ready` (vfs.c lines 367-381): true when the hook is missing,
otherwise the hook's result under the shared lock. -/
def vfs_read_ready (f : FOps) : Option (Bool × List Ev) :=
  match f.read_ready with
  | none => some (true, [])
  | some b => do
    let l ← vfs_shlock f
    let u ← vfs_shunlock f
    pure (b, l ++ Ev.hookReadReady :: u)

/-- `vfs_write_ready` (vfs.c lines 383-397). -/
def vfs_write_ready (f : FOps) : Option (Bool × List Ev) :=
  match f.write_ready with
  | none => some (true, [])
  | some b => do
    let l ← vfs_shlock f
    let u ← vfs_shunlock f
    pure (b, l ++ Ev.hookWriteReady :: u)

/-- `vfs_except_ready` (vfs.c lines 399-413): false when the hook is
missing. -/
def vfs_except_ready (f : FOps) : Option (Bool × List Ev) :=
  match f.except_ready with
  | none => some (false, [])
  | some b => do
    let l ← vfs_shlock f
    let u ← vfs_shunlock f
    pure (b, l ++ Ev.hookExceptReady :: u)

/-- `vfs_get_rready_cond` (vfs.c lines 415-423): NULL when the hook is
missing, otherwise the hook's result. -/
def vfs_get_rready_cond (f : FOps) : Option Nat :=
  match f.get_rready_cond with
  | none => none
  | some k => k

/-- `vfs_get_wready_cond` (vfs.c lines 425-433). -/
def vfs_get_wready_cond (f : FOps) : Option Nat :=
  match f.get_wready_cond with
  | none => none
  | some k => k

/-- `vfs_get_except_cond` (vfs.c lines 435-443). -/
def vfs_get_except_cond (f : FOps) : Option Nat :=
  match f.get_except_cond with
  | none => none
  | some k => k

/-- Events of a shared-lock acquisition through `vfs_shlock` when the lock
hooks are well paired. -/
def shLockEvs (f : FOps) : List Ev := if f.shlock then [Ev.hSh] else [Ev.fsSh]

/-- Events of a shared-lock release through `vfs_shunlock` when paired. -/
def shUnlockEvs (f : FOps) : List Ev := if f.shunlock then [Ev.hShU] else [Ev.fsShU]

/-- Events of an exclusive-lock acquisition through `vfs_exlock` when
paired. -/
def exLockEvs (f : FOps) : List Ev := if f.exlock then [Ev.hEx] else [Ev.fsEx]

/-- Events of an exclusive-lock release through `vfs_exunlock` when
paired. -/
def exUnlockEvs (f : FOps) : List Ev := if f.exunlock then [Ev.hExU] else [Ev.fsExU]

/-! ### Filesystem reference counting (vfs.c lines 128-168) -/

/-- Effect of `vfs_open` on `fs->ref_count` (vfs.c lines 128-130), given
the open hook's result `rc`: incremented exactly when `rc == 0`. -/
def vfs_open_ref (n rc : Int) : Int := if rc = 0 then n + 1 else n

/-- Effect of `vfs_dup` on `fs->ref_count` (vfs.c lines 163-166), given the
dup hook's result `rc`: incremented exactly when `rc == 0`. -/
def vfs_dup_ref (n rc : Int) : Int := if rc = 0 then n + 1 else n

/-- Effect of `vfs_close` on `fs->ref_count` (vfs.c line 149). -/
def vfs_close_ref (n : Int) : Int := n - 1

/-- The post-decrement `ASSERT(fs->ref_count > 0)` of `vfs_close`
(vfs.c line 152). -/
def vfs_close_assert (n : Int) : Prop := 0 < vfs_close_ref n

/-- The ordered steps of `vfs_close` (vfs.c lines 137-153). -/
inductive CloseStep where
  | remove_mappings | close_hook | dec_ref
  deriving DecidableEq

/-- `vfs_close` performs: unmap the handle's memory mappings, call the
filesystem's close hook, then decrement the reference count. -/
def vfs_close_steps : List CloseStep := [.remove_mappings, .close_hook, .dec_ref]

/-- A reference-count event: a `vfs_open` whose hook returned `rc`, a
`vfs_close`, or a `vfs_dup` whose hook returned `rc`. -/
inductive RefEv where
  | opn (rc : Int)
  | cls
  | dup (rc : Int)

/-- The `ref_count` update performed by one VFS call. -/
def refStep (n : Int) : RefEv → Int
  | .opn rc => vfs_open_ref n rc
  | .cls => vfs_close_ref n
  | .dup rc => vfs_dup_ref n rc

/-- `ref_count` after a sequence of VFS calls. -/
def refRun (n : Int) : List RefEv → Int
  | [] => n
  | e :: es => refRun (refStep n e) es

/-- Net live-handle contribution of one event: +1 for a successful open or
dup, -1 for a close. -/
def hDelta : RefEv → Int
  | .opn rc => if rc = 0 then 1 else 0
  | .cls => -1
  | .dup rc => if rc = 0 then 1 else 0

/-- Handle discipline: starting with `h` live handles, no prefix of the
event list ever closes more handles than were opened. -/
def handleOk (h : Int) : List RefEv → Bool
  | [] => true
  | e :: es => decide (0 ≤ h + hDelta e) && handleOk (h + hDelta e) es

/-! ### Device-id allocator (vfs.c lines 13 and 362-365) -/

/-- `vfs_get_new_device_id`: returns the current value of the `u32`
counter `next_device_id` and post-increments it (wrapping mod 2^32). -/
def vfs_get_new_device_id (s : Nat) : Nat × Nat := (s, (s + 1) % 4294967296)

/-- Counter state after `n` calls, starting from the static initial 0. -/
def deviceState : Nat → Nat
  | 0 => 0
  | n + 1 => (vfs_get_new_device_id (deviceState n)).2

/-- The id returned by the `n`-th call (counting from 0). -/
def deviceId (n : Nat) : Nat := (vfs_get_new_device_id (deviceState n)).1

end Tilck

namespace Tilck

/-! ### Helper lemmas -/

theorem isAvl_node {l r : Tree α} {x : α} :
    isAvl (Tree.node l x r) = true ↔
      height l ≤ height r + 1 ∧ height r ≤ height l + 1 ∧ isAvl l = true ∧ isAvl r = true := by
  simp [isAvl]
  tauto

theorem balance_restores (l : Tree α) (x : α) (r : Tree α)
    (hl : isAvl l = true) (hr : isAvl r = true)
    (hgap1 : height l ≤ height r + 2) (hgap2 : height r ≤ height l + 2) :
    isAvl (balance (Tree.node l x r)) = true ∧
    height (balance (Tree.node l x r)) ≤ height (Tree.node l x r) ∧
    height (Tree.node l x r) ≤ height (balance (Tree.node l x r)) + 1 ∧
    (height l ≤ height r + 1 → height r ≤ height l + 1 →
      balance (Tree.node l x r) = Tree.node l x r) := by
  by_cases hL : height r + 2 ≤ height l
  · cases l with
    | leaf => simp [height] at hL
    | node ll lx lr =>
      rw [isAvl_node] at hl
      obtain ⟨hb1, hb2, hall, halr⟩ := hl
      by_cases hS : height lr ≤ height ll
      · have hb : balance (Tree.node (Tree.node ll lx lr) x r) =
            Tree.node ll lx (Tree.node lr x r) := by
          simp only [balance, if_pos hL, if_pos hS]
        rw [hb]
        simp only [isAvl_node, height] at *
        refine ⟨⟨?_, ?_, hall, ?_, ?_, halr, hr⟩, ?_, ?_, ?_⟩ <;> omega
      · cases lr with
        | leaf => simp [height] at hS
        | node lrl lrx lrr =>
          rw [isAvl_node] at halr
          obtain ⟨hc1, hc2, halrl, halrr⟩ := halr
          have hb : balance (Tree.node (Tree.node ll lx (Tree.node lrl lrx lrr)) x r) =
              Tree.node (Tree.node ll lx lrl) lrx (Tree.node lrr x r) := by
            simp only [balance, if_pos hL, if_neg hS]
          rw [hb]
          simp only [isAvl_node, height] at *
          refine ⟨⟨?_, ?_, ⟨?_, ?_, hall, halrl⟩, ?_, ?_, halrr, hr⟩, ?_, ?_, ?_⟩ <;> omega
  · by_cases hR : height l + 2 ≤ height r
    · cases r with
      | leaf => simp [height] at hR
      | node rl rx rr =>
        rw [isAvl_node] at hr
        obtain ⟨hb1, hb2, harl, harr⟩ := hr
        by_cases hS : height rl ≤ height rr
        · have hb : balance (Tree.node l x (Tree.node rl rx rr)) =
              Tree.node (Tree.node l x rl) rx rr := by
            simp only [balance, if_neg hL, if_pos hR, if_pos hS]
          rw [hb]
          simp only [isAvl_node, height] at *
          refine ⟨⟨?_, ?_, ⟨?_, ?_, hl, harl⟩, harr⟩, ?_, ?_, ?_⟩ <;> omega
        · cases rl with
          | leaf => simp [height] at hS
          | node rll rlx rlr =>
            rw [isAvl_node] at harl
            obtain ⟨hc1, hc2, harll, harlr⟩ := harl
            have hb : balance (Tree.node l x (Tree.node (Tree.node rll rlx rlr) rx rr)) =
                Tree.node (Tree.node l x rll) rlx (Tree.node rlr rx rr) := by
              simp only [balance, if_neg hL, if_pos hR, if_neg hS]
            rw [hb]
            simp only [isAvl_node, height] at *
            refine ⟨⟨?_, ?_, ⟨?_, ?_, hl, harll⟩, ?_, ?_, harlr, harr⟩, ?_, ?_, ?_⟩ <;> omega
    · have hb : balance (Tree.node l x r) = Tree.node l x r := by
        cases l <;> cases r <;> simp only [balance, if_neg hL, if_neg hR]
      rw [hb]
      simp only [isAvl_node, height] at *
      exact ⟨⟨by omega, by omega, hl, hr⟩, by omega, by omega, fun _ _ => trivial⟩

theorem insert_false_eq (cmp : α → α → Int) (obj : α) (t : Tree α)
    (h : (bintree_insert cmp obj t).2 = false) : (bintree_insert cmp obj t).1 = t := by
  induction t with
  | leaf => simp [bintree_insert] at h
  | node l x r ihl ihr =>
    by_cases hc0 : cmp obj x = 0
    · simp [bintree_insert, hc0]
    · by_cases hcn : cmp obj x < 0
      · simp only [bintree_insert, if_neg hc0, if_pos hcn] at h ⊢
        by_cases hp : (bintree_insert cmp obj l).2
        · rw [if_pos hp] at h
          simp at h
        · simp only [Bool.not_eq_true] at hp
          simp [hp, ihl hp]
      · simp only [bintree_insert, if_neg hc0, if_neg hcn] at h ⊢
        by_cases hp : (bintree_insert cmp obj r).2
        · rw [if_pos hp] at h
          simp at h
        · simp only [Bool.not_eq_true] at hp
          simp [hp, ihr hp]

theorem insert_avl (cmp : α → α → Int) (obj : α) (t : Tree α) (h : isAvl t = true) :
    isAvl (bintree_insert cmp obj t).1 = true ∧
    height t ≤ height (bintree_insert cmp obj t).1 ∧
    height (bintree_insert cmp obj t).1 ≤ height t + 1 := by
  induction t with
  | leaf => simp [bintree_insert, isAvl, height]
  | node l x r ihl ihr =>
    rw [isAvl_node] at h
    obtain ⟨h1, h2, hal, har⟩ := h
    by_cases hc0 : cmp obj x = 0
    · simp only [bintree_insert, if_pos hc0]
      exact ⟨isAvl_node.mpr ⟨h1, h2, hal, har⟩, le_refl _, Nat.le_succ _⟩
    · by_cases hcn : cmp obj x < 0
      · simp only [bintree_insert, if_neg hc0, if_pos hcn]
        by_cases hp : (bintree_insert cmp obj l).2
        · rw [if_pos hp]
          obtain ⟨ia, ih1, ih2⟩ := ihl hal
          obtain ⟨ba, bh1, bh2, bid⟩ :=
            balance_restores (bintree_insert cmp obj l).1 x r ia har (by omega) (by omega)
          refine ⟨ba, ?_, ?_⟩
          · by_cases hgap : height (bintree_insert cmp obj l).1 ≤ height r + 1
            · rw [bid hgap (by omega)]
              simp only [height] at *
              omega
            · simp only [height] at *
              omega
          · simp only [height] at *
            omega
        · simp only [Bool.not_eq_true] at hp
          rw [if_neg (by simp [hp]), insert_false_eq cmp obj l hp]
          exact ⟨isAvl_node.mpr ⟨h1, h2, hal, har⟩, le_refl _, Nat.le_succ _⟩
      · simp only [bintree_insert, if_neg hc0, if_neg hcn]
        by_cases hp : (bintree_insert cmp obj r).2
        · rw [if_pos hp]
          obtain ⟨ia, ih1, ih2⟩ := ihr har
          obtain ⟨ba, bh1, bh2, bid⟩ :=
            balance_restores l x (bintree_insert cmp obj r).1 hal ia (by omega) (by omega)
          refine ⟨ba, ?_, ?_⟩
          · by_cases hgap : height (bintree_insert cmp obj r).1 ≤ height l + 1
            · rw [bid (by omega) hgap]
              simp only [height] at *
              omega
            · simp only [height] at *
              omega
          · simp only [height] at *
            omega
        · simp only [Bool.not_eq_true] at hp
          rw [if_neg (by simp [hp]), insert_false_eq cmp obj r hp]
          exact ⟨isAvl_node.mpr ⟨h1, h2, hal, har⟩, le_refl _, Nat.le_succ _⟩

theorem elems_balance (t : Tree α) : elems (balance t) = elems t := by
  cases t with
  | leaf => rfl
  | node l x r =>
    cases l <;> cases r <;> simp only [balance] <;> (repeat' split) <;> simp [elems]

theorem insert_false_mem (cmp : α → α → Int) (obj : α) (t : Tree α)
    (h : (bintree_insert cmp obj t).2 = false) : ∃ y ∈ elems t, cmp obj y = 0 := by
  induction t with
  | leaf => simp [bintree_insert] at h
  | node l x r ihl ihr =>
    by_cases hc0 : cmp obj x = 0
    · exact ⟨x, by simp [elems], hc0⟩
    · by_cases hcn : cmp obj x < 0
      · simp only [bintree_insert, if_neg hc0, if_pos hcn] at h
        by_cases hp : (bintree_insert cmp obj l).2
        · rw [if_pos hp] at h
          simp at h
        · simp only [Bool.not_eq_true] at hp
          obtain ⟨y, hy, hcy⟩ := ihl hp
          exact ⟨y, by simp [elems, hy], hcy⟩
      · simp only [bintree_insert, if_neg hc0, if_neg hcn] at h
        by_cases hp : (bintree_insert cmp obj r).2
        · rw [if_pos hp] at h
          simp at h
        · simp only [Bool.not_eq_true] at hp
          obtain ⟨y, hy, hcy⟩ := ihr hp
          exact ⟨y, by simp [elems, hy], hcy⟩

theorem insert_mem_sub (cmp : α → α → Int) (obj : α) (t : Tree α) (y : α)
    (h : y ∈ elems (bintree_insert cmp obj t).1) : y ∈ elems t ∨ y = obj := by
  induction t with
  | leaf =>
    simp [bintree_insert, elems] at h
    tauto
  | node l x r ihl ihr =>
    by_cases hc0 : cmp obj x = 0
    · simp only [bintree_insert, if_pos hc0] at h
      exact Or.inl h
    · by_cases hcn : cmp obj x < 0
      · simp only [bintree_insert, if_neg hc0, if_pos hcn] at h
        by_cases hp : (bintree_insert cmp obj l).2
        · rw [if_pos hp] at h
          rw [elems_balance] at h
          simp only [elems, List.mem_append, List.mem_cons] at h ⊢
          rcases h with h | h | h
          · rcases ihl h with h2 | h2
            · exact Or.inl (Or.inl h2)
            · exact Or.inr h2
          · exact Or.inl (Or.inr (Or.inl h))
          · exact Or.inl (Or.inr (Or.inr h))
        · rw [if_neg (by simp [hp])] at h
          simp only [Bool.not_eq_true] at hp
          rw [insert_false_eq cmp obj l hp] at h
          exact Or.inl h
      · simp only [bintree_insert, if_neg hc0, if_neg hcn] at h
        by_cases hp : (bintree_insert cmp obj r).2
        · rw [if_pos hp] at h
          rw [elems_balance] at h
          simp only [elems, List.mem_append, List.mem_cons] at h ⊢
          rcases h with h | h | h
          · exact Or.inl (Or.inl h)
          · exact Or.inl (Or.inr (Or.inl h))
          · rcases ihr h with h2 | h2
            · exact Or.inl (Or.inr (Or.inr h2))
            · exact Or.inr h2
        · rw [if_neg (by simp [hp])] at h
          simp only [Bool.not_eq_true] at hp
          rw [insert_false_eq cmp obj r hp] at h
          exact Or.inl h

theorem insert_true_size (cmp : α → α → Int) (obj : α) (t : Tree α)
    (h : (bintree_insert cmp obj t).2 = true) :
    size (bintree_insert cmp obj t).1 = size t + 1 := by
  induction t with
  | leaf => simp [bintree_insert, size, elems]
  | node l x r ihl ihr =>
    by_cases hc0 : cmp obj x = 0
    · simp [bintree_insert, if_pos hc0] at h
    · by_cases hcn : cmp obj x < 0
      · simp only [bintree_insert, if_neg hc0, if_pos hcn] at h ⊢
        by_cases hp : (bintree_insert cmp obj l).2
        · rw [if_pos hp]
          simp only [size, elems_balance, elems, List.length_append, List.length_cons]
          have := ihl hp
          simp only [size] at this
          omega
        · rw [if_neg (by simp [hp])] at h
          simp at h
      · simp only [bintree_insert, if_neg hc0, if_neg hcn] at h ⊢
        by_cases hp : (bintree_insert cmp obj r).2
        · rw [if_pos hp]
          simp only [size, elems_balance, elems, List.length_append, List.length_cons]
          have := ihr hp
          simp only [size] at this
          omega
        · rw [if_neg (by simp [hp])] at h
          simp at h

theorem insertList_avl (cmp : α → α → Int) (xs : List α) :
    ∀ t : Tree α, isAvl t = true → isAvl (insertList cmp xs t) = true := by
  induction xs with
  | nil =>
    intro t h
    exact h
  | cons x xs ih =>
    intro t h
    exact ih _ (insert_avl cmp x t h).1

theorem isAvl_iff_allNodesBalanced (t : Tree α) : isAvl t = true ↔ allNodesBalanced t := by
  induction t with
  | leaf => simp [isAvl, allNodesBalanced]
  | node l x r ihl ihr =>
    rw [isAvl_node]
    simp only [allNodesBalanced, balanceFactor]
    constructor
    · rintro ⟨h1, h2, h3, h4⟩
      exact ⟨by omega, ihl.mp h3, ihr.mp h4⟩
    · rintro ⟨h1, h2, h3⟩
      exact ⟨by omega, by omega, ihl.mpr h2, ihr.mpr h3⟩

theorem insert_dup_unchanged (cmp : α → α → Int)
    (hsub : ∀ a b, cmp a b = 0 → ∀ c, cmp a c = cmp b c) (obj y : α)
    (heq : cmp obj y = 0) :
    ∀ t : Tree α, isBst cmp t → y ∈ elems t → bintree_insert cmp obj t = (t, false) := by
  intro t
  induction t with
  | leaf =>
    intro _ hy
    simp [elems] at hy
  | node l x r ihl ihr =>
    intro hbst hy
    obtain ⟨hbl, hbr, bl, br⟩ := hbst
    simp only [elems, List.mem_append, List.mem_cons] at hy
    by_cases hc0 : cmp obj x = 0
    · simp [bintree_insert, hc0]
    · rcases hy with hy | hy | hy
      · have hx : cmp obj x < 0 := by
          rw [hsub obj y heq x]
          exact hbl y hy
        simp only [bintree_insert, if_neg hc0, if_pos hx]
        simp [ihl bl hy]
      · exact absurd (hy ▸ heq) hc0
      · have hx : 0 < cmp obj x := by
          rw [hsub obj y heq x]
          exact hbr y hy
        simp only [bintree_insert, if_neg hc0, if_neg (by omega : ¬ cmp obj x < 0)]
        simp [ihr br hy]

theorem insertList_size (cmp : α → α → Int) :
    ∀ xs : List α, List.Pairwise (fun a b => cmp b a ≠ 0) xs →
      ∀ t : Tree α, (∀ y ∈ elems t, ∀ x ∈ xs, cmp x y ≠ 0) →
        size (insertList cmp xs t) = size t + xs.length := by
  intro xs
  induction xs with
  | nil =>
    intro _ t _
    simp [insertList]
  | cons x xs ih =>
    intro hpw t hsep
    rw [List.pairwise_cons] at hpw
    obtain ⟨hx, hpw2⟩ := hpw
    have hsucc : (bintree_insert cmp x t).2 = true := by
      by_contra hcon
      simp only [Bool.not_eq_true] at hcon
      obtain ⟨y, hy, hcy⟩ := insert_false_mem cmp x t hcon
      exact hsep y hy x (List.mem_cons_self x xs) hcy
    have hsep2 : ∀ y ∈ elems (bintree_insert cmp x t).1, ∀ z ∈ xs, cmp z y ≠ 0 := by
      intro y hy z hz
      rcases insert_mem_sub cmp x t y hy with h2 | h2
      · exact hsep y h2 z (List.mem_cons_of_mem x hz)
      · rw [h2]
        exact hx z hz
    simp only [insertList]
    rw [ih hpw2 (bintree_insert cmp x t).1 hsep2, insert_true_size cmp x t hsucc]
    simp only [List.length_cons]
    omega

theorem refRun_pos : ∀ (es : List RefEv) (h : Int), 0 ≤ h → handleOk h es = true →
    ∀ k : Nat, 0 < refRun (h + 1) (es.take k) := by
  intro es
  induction es with
  | nil =>
    intro h h0 _ k
    simp [refRun]
    omega
  | cons e es ih =>
    intro h h0 hok k
    rw [handleOk] at hok
    simp only [Bool.and_eq_true, decide_eq_true_eq] at hok
    obtain ⟨h1, h2⟩ := hok
    cases k with
    | zero =>
      simp [refRun]
      omega
    | succ k =>
      simp only [List.take_succ_cons, refRun]
      have hstep : refStep (h + 1) e = (h + hDelta e) + 1 := by
        cases e with
        | opn rc =>
          by_cases hrc : rc = 0 <;> simp [refStep, vfs_open_ref, hDelta, hrc]
        | cls =>
          simp only [refStep, vfs_close_ref, hDelta]
          omega
        | dup rc =>
          by_cases hrc : rc = 0 <;> simp [refStep, vfs_dup_ref, hDelta, hrc]
      rw [hstep]
      exact ih (h + hDelta e) h1 h2 k

theorem refRun_append (n : Int) (a b : List RefEv) :
    refRun n (a ++ b) = refRun (refRun n a) b := by
  induction a generalizing n with
  | nil => simp [refRun]
  | cons e a ih => simp [refRun, ih]

theorem deviceState_eq (n : Nat) : deviceState n = n % 4294967296 := by
  induction n with
  | zero => rfl
  | succ n ih =>
    simp only [deviceState, vfs_get_new_device_id, ih]
    omega

theorem matchLen_le_left : ∀ a b : List Nat, matchLen a b ≤ a.length := by
  intro a
  induction a with
  | nil =>
    intro b
    cases b <;> simp [matchLen]
  | cons x xs ih =>
    intro b
    cases b with
    | nil => simp [matchLen]
    | cons y ys =>
      simp only [matchLen, List.length_cons]
      split
      · have := ih ys
        omega
      · omega

theorem matchLen_le_right : ∀ a b : List Nat, matchLen a b ≤ b.length := by
  intro a
  induction a with
  | nil =>
    intro b
    cases b <;> simp [matchLen]
  | cons x xs ih =>
    intro b
    cases b with
    | nil => simp [matchLen]
    | cons y ys =>
      simp only [matchLen, List.length_cons]
      split
      · have := ih ys
        omega
      · omega

theorem matchLen_take : ∀ a b : List Nat, a.take (matchLen a b) = b.take (matchLen a b) := by
  intro a
  induction a with
  | nil =>
    intro b
    cases b <;> simp [matchLen]
  | cons x xs ih =>
    intro b
    cases b with
    | nil => simp [matchLen]
    | cons y ys =>
      simp only [matchLen]
      split
      · rename_i hxy
        simp [List.take_succ_cons, hxy, ih ys]
      · simp

theorem cAt_ne_zero_iff : ∀ s : List Nat, validStr s → ∀ i, cAt s i ≠ 0 ↔ i < s.length := by
  intro s
  induction s with
  | nil =>
    intro _ i
    simp [cAt]
  | cons c cs ih =>
    intro hv i
    have hc : c ≠ 0 := hv c (List.mem_cons_self c cs)
    have hv2 : validStr cs := fun d hd => hv d (List.mem_cons_of_mem c hd)
    cases i with
    | zero => simp [cAt, hc]
    | succ i =>
      simp only [cAt, List.getD_cons_succ, List.length_cons]
      rw [show cs.getD i 0 = cAt cs i from rfl]
      rw [ih hv2 i]
      omega

theorem check_mountpoint_match_eq (mp path : List Nat) :
    check_mountpoint_match mp path =
      if cAt mp (matchLen mp path) ≠ 0 then
        if cAt mp (matchLen mp path) = 47 ∧ cAt mp (matchLen mp path + 1) = 0 ∧
            cAt path (matchLen mp path) = 0 then matchLen mp path
        else 0
      else if cAt path (matchLen mp path - 1) ≠ 47 ∧
          cAt path (matchLen mp path - 1) ≠ 0 then 0
      else matchLen mp path := rfl

/-! ### The claims -/

/-- C1: with registered mountpoints `/` (filesystem 1) and `/dev/`
(filesystem 2), in either registration order: `/dev/null` resolves to
filesystem 2 (the longest valid match) with remainder `/null`; `/devX`
resolves to filesystem 1, because the partial-component match against
`/dev/` is rejected; `/dev` (no trailing slash) resolves to filesystem 2
with remainder `/`. -/
theorem mount_resolution_cases :
    vfs_resolve [⟨strChars "/", 1⟩, ⟨strChars "/dev/", 2⟩] (strChars "/dev/null") =
        some (2, strChars "/null") ∧
    vfs_resolve [⟨strChars "/dev/", 2⟩, ⟨strChars "/", 1⟩] (strChars "/dev/null") =
        some (2, strChars "/null") ∧
    vfs_resolve [⟨strChars "/", 1⟩, ⟨strChars "/dev/", 2⟩] (strChars "/devX") =
        some (1, strChars "/devX") ∧
    vfs_resolve [⟨strChars "/", 1⟩, ⟨strChars "/dev/", 2⟩] (strChars "/dev") =
        some (2, strChars "/") := by
  refine ⟨by decide, by decide, by decide, by decide⟩

/-- C2: after every prefix of an arbitrary sequence of insertions into the
initially empty tree (in particular after each successful insertion — failed
insertions leave the tree unchanged), every node's balance factor is in
{-1, 0, +1}. -/
theorem avl_insert_sequence_balanced {α : Type u} (cmp : α → α → Int)
    (xs : List α) (n : Nat) :
    allNodesBalanced (insertList cmp (xs.take n) Tree.leaf) := by
  rw [← isAvl_iff_allNodesBalanced]
  exact insertList_avl cmp (xs.take n) Tree.leaf rfl

/-- C3: for a comparator whose equality is substitutive (a total-order
three-way comparator, covering both the value-comparator and pointer-field
variants) and a search tree, inserting an object that compares equal to an
existing member returns the tree completely unchanged together with
failure; and inserting a list of pairwise-distinct objects into the empty
tree yields a tree of exactly one node per object. -/
theorem insert_duplicate_rejected_and_distinct_count {α : Type u} (cmp : α → α → Int) :
    (∀ (t : Tree α) (obj y : α),
      (∀ a b, cmp a b = 0 → ∀ c, cmp a c = cmp b c) →
      isBst cmp t → y ∈ elems t → cmp obj y = 0 →
      bintree_insert cmp obj t = (t, false)) ∧
    (∀ xs : List α, List.Pairwise (fun a b => cmp b a ≠ 0) xs →
      size (insertList cmp xs Tree.leaf) = xs.length) := by
  constructor
  · intro t obj y hsub hbst hy heq
    exact insert_dup_unchanged cmp hsub obj y heq t hbst hy
  · intro xs hpw
    have := insertList_size cmp xs hpw Tree.leaf (by simp [elems])
    simpa [size, elems] using this

theorem insert_duplicate_rejected_and_distinct_count_w :
    bintree_insert (fun a b : Int => a - b) 3
        (Tree.node (Tree.node Tree.leaf 1 Tree.leaf) 2 (Tree.node Tree.leaf 3 Tree.leaf)) =
      (Tree.node (Tree.node Tree.leaf 1 Tree.leaf) 2 (Tree.node Tree.leaf 3 Tree.leaf),
        false) ∧
    size (insertList (fun a b : Int => a - b) [2, 1, 3] Tree.leaf) = 3 := by
  constructor
  · exact (insert_duplicate_rejected_and_distinct_count (fun a b : Int => a - b)).1
      (Tree.node (Tree.node Tree.leaf 1 Tree.leaf) 2 (Tree.node Tree.leaf 3 Tree.leaf))
      3 3 (fun a b h c => by omega) (by norm_num [isBst, elems]) (by simp [elems])
      (by norm_num)
  · exact (insert_duplicate_rejected_and_distinct_count (fun a b : Int => a - b)).2
      [2, 1, 3] (by decide)

/-- C4: a successful vfs_open or vfs_dup (hook result 0) increments the
filesystem's ref_count by exactly 1 and a failed one leaves it unchanged;
vfs_close decrements it by exactly 1, with the decrement strictly after the
close hook in the ordered steps of vfs_close; and from the mounted baseline
of 1, under the handle discipline (no prefix of the call sequence closes
more handles than were successfully opened or duplicated), ref_count stays
strictly positive after every prefix, so the post-decrement assertion of
vfs_close holds at every close. -/
theorem vfs_refcount_discipline :
    (∀ n rc : Int,
      vfs_open_ref n 0 = n + 1 ∧ (rc ≠ 0 → vfs_open_ref n rc = n) ∧
      vfs_dup_ref n 0 = n + 1 ∧ (rc ≠ 0 → vfs_dup_ref n rc = n) ∧
      vfs_close_ref n = n - 1) ∧
    vfs_close_steps.indexOf CloseStep.close_hook <
      vfs_close_steps.indexOf CloseStep.dec_ref ∧
    (∀ es : List RefEv, handleOk 0 es = true → ∀ k, 0 < refRun 1 (es.take k)) ∧
    (∀ es : List RefEv, handleOk 0 es = true → ∀ k, es[k]? = some RefEv.cls →
      vfs_close_assert (refRun 1 (es.take k))) := by
  have main : ∀ es : List RefEv, handleOk 0 es = true → ∀ k, 0 < refRun 1 (es.take k) := by
    intro es hok k
    have := refRun_pos es 0 le_rfl hok k
    simpa using this
  refine ⟨?_, ?_, main, ?_⟩
  · intro n rc
    refine ⟨by simp [vfs_open_ref], fun h => by simp [vfs_open_ref, h],
      by simp [vfs_dup_ref], fun h => by simp [vfs_dup_ref, h], rfl⟩
  · decide
  · intro es hok k hk
    have h1 := main es hok (k + 1)
    rw [List.take_succ, hk] at h1
    rw [refRun_append] at h1
    simp only [Option.toList_some, refRun, refStep, vfs_close_ref] at h1
    simpa [vfs_close_assert, vfs_close_ref] using h1

theorem vfs_refcount_discipline_w :
    vfs_open_ref 1 0 = 1 + 1 ∧ 0 < refRun 1 ([RefEv.opn 0, RefEv.cls].take 2) :=
  ⟨(vfs_refcount_discipline.1 1 5).1,
    vfs_refcount_discipline.2.2.1 [RefEv.opn 0, RefEv.cls] (by decide) 2⟩

/-- C5 as stated is false on the code: a handle that does supply per-handle
shared-lock hooks still sees vfs_getdents64 acquire the filesystem-wide
shared lock; no per-handle lock event occurs. -/
theorem getdents_handle_lock_cex :
    vfs_getdents64
        ⟨none, none, none, none, none, false, false, true, true,
          none, none, none, none, none, none⟩ (some 7) =
      some (7, [Ev.fsSh, Ev.hookGetdents, Ev.fsShU]) ∧
    FOps.shlock
        ⟨none, none, none, none, none, false, false, true, true,
          none, none, none, none, none, none⟩ = true ∧
    Ev.hSh ∉ [Ev.fsSh, Ev.hookGetdents, Ev.fsShU] ∧
    Ev.hShU ∉ [Ev.fsSh, Ev.hookGetdents, Ev.fsShU] :=
  ⟨rfl, rfl, by decide, by decide⟩

/-- C5 amended: vfs_getdents64 always acquires the filesystem-wide shared
lock around the filesystem's getdents hook, regardless of the handle's
per-handle lock hooks. -/
theorem getdents_always_fs_lock (f : FOps) (g : Option Int) (gd : Int) (h : g = some gd) :
    vfs_getdents64 f g = some (gd, [Ev.fsSh, Ev.hookGetdents, Ev.fsShU]) := by
  subst h
  rfl

theorem getdents_always_fs_lock_w :
    vfs_getdents64
        ⟨none, none, none, none, none, false, false, true, true,
          none, none, none, none, none, none⟩ (some 5) =
      some (5, [Ev.fsSh, Ev.hookGetdents, Ev.fsShU]) :=
  getdents_always_fs_lock _ _ 5 rfl

/-- C6: each per-handle lock hook is invoked when present; a one-sided pair
makes the dispatcher of the missing direction hit its pairing assertion
(fatal, embedded as none); when neither hook of a pair is present the call
falls back to the filesystem-wide lock of the same mode; and under the
paired-hooks precondition no lock dispatcher ever hits an assertion. -/
theorem lock_delegation_protocol (f : FOps) :
    (f.exlock = true → vfs_exlock f = some [Ev.hEx]) ∧
    (f.exunlock = true → vfs_exunlock f = some [Ev.hExU]) ∧
    (f.shlock = true → vfs_shlock f = some [Ev.hSh]) ∧
    (f.shunlock = true → vfs_shunlock f = some [Ev.hShU]) ∧
    (f.exlock ≠ f.exunlock → vfs_exlock f = none ∨ vfs_exunlock f = none) ∧
    (f.shlock ≠ f.shunlock → vfs_shlock f = none ∨ vfs_shunlock f = none) ∧
    (f.exlock = false → f.exunlock = false →
      vfs_exlock f = some [Ev.fsEx] ∧ vfs_exunlock f = some [Ev.fsExU]) ∧
    (f.shlock = false → f.shunlock = false →
      vfs_shlock f = some [Ev.fsSh] ∧ vfs_shunlock f = some [Ev.fsShU]) ∧
    (f.exlock = f.exunlock → vfs_exlock f ≠ none ∧ vfs_exunlock f ≠ none) ∧
    (f.shlock = f.shunlock → vfs_shlock f ≠ none ∧ vfs_shunlock f ≠ none) := by
  obtain ⟨rd, wr, sk, io, fc, exl, exu, shl, shu, rr, wrr, er, g1, g2, g3⟩ := f
  cases exl <;> cases exu <;> cases shl <;> cases shu <;>
    simp [vfs_exlock, vfs_exunlock, vfs_shlock, vfs_shunlock]

theorem lock_delegation_protocol_w :
    vfs_exlock
        ⟨none, none, none, none, none, true, false, false, false,
          none, none, none, none, none, none⟩ = none ∨
    vfs_exunlock
        ⟨none, none, none, none, none, true, false, false, false,
          none, none, none, none, none, none⟩ = none :=
  (lock_delegation_protocol
    ⟨none, none, none, none, none, true, false, false, false,
      none, none, none, none, none, none⟩).2.2.2.2.1 (by decide)

/-- C7: with the relevant hook missing, vfs_seek returns -ESPIPE,
vfs_ioctl returns -ENOTTY, and vfs_read, vfs_write, vfs_fcntl return
-EINVAL, each with no hook or lock activity at all; with the hook present
(and well-paired lock hooks), each operation returns the hook's result
unchanged, wrapped in the lock events of its mode (none for seek). -/
theorem capability_errors (f : FOps)
    (hex : f.exlock = f.exunlock) (hsh : f.shlock = f.shunlock) :
    (f.seek = none → vfs_seek f = (-29, [])) ∧
    (f.ioctl = none → vfs_ioctl f = some (-25, [])) ∧
    (f.read = none → vfs_read f = some (-22, [])) ∧
    (f.write = none → vfs_write f = some (-22, [])) ∧
    (f.fcntl = none → vfs_fcntl f = some (-22, [])) ∧
    (∀ r, f.seek = some r → vfs_seek f = (r, [Ev.hookSeek])) ∧
    (∀ r, f.read = some r →
      vfs_read f = some (r, shLockEvs f ++ Ev.hookRead :: shUnlockEvs f)) ∧
    (∀ r, f.write = some r →
      vfs_write f = some (r, exLockEvs f ++ Ev.hookWrite :: exUnlockEvs f)) ∧
    (∀ r, f.ioctl = some r →
      vfs_ioctl f = some (r, exLockEvs f ++ Ev.hookIoctl :: exUnlockEvs f)) ∧
    (∀ r, f.fcntl = some r →
      vfs_fcntl f = some (r, exLockEvs f ++ Ev.hookFcntl :: exUnlockEvs f)) := by
  have hs1 : vfs_shlock f = some (shLockEvs f) := by
    cases hb : f.shlock with
    | true => simp [vfs_shlock, shLockEvs, hb]
    | false =>
      rw [hb] at hsh
      simp [vfs_shlock, shLockEvs, hb, ← hsh]
  have hs2 : vfs_shunlock f = some (shUnlockEvs f) := by
    cases hb : f.shunlock with
    | true => simp [vfs_shunlock, shUnlockEvs, hb]
    | false =>
      rw [hb] at hsh
      simp [vfs_shunlock, shUnlockEvs, hb, hsh]
  have he1 : vfs_exlock f = some (exLockEvs f) := by
    cases hb : f.exlock with
    | true => simp [vfs_exlock, exLockEvs, hb]
    | false =>
      rw [hb] at hex
      simp [vfs_exlock, exLockEvs, hb, ← hex]
  have he2 : vfs_exunlock f = some (exUnlockEvs f) := by
    cases hb : f.exunlock with
    | true => simp [vfs_exunlock, exUnlockEvs, hb]
    | false =>
      rw [hb] at hex
      simp [vfs_exunlock, exUnlockEvs, hb, hex]
  refine ⟨fun h => by simp [vfs_seek, h], fun h => by simp [vfs_ioctl, h],
    fun h => by simp [vfs_read, h], fun h => by simp [vfs_write, h],
    fun h => by simp [vfs_fcntl, h],
    fun r h => by simp [vfs_seek, h],
    fun r h => by simp [vfs_read, h, hs1, hs2],
    fun r h => by simp [vfs_write, h, he1, he2],
    fun r h => by simp [vfs_ioctl, h, he1, he2],
    fun r h => by simp [vfs_fcntl, h, he1, he2]⟩

theorem capability_errors_w :
    vfs_seek
        ⟨none, none, none, none, none, false, false, false, false,
          none, none, none, none, none, none⟩ = (-29, []) :=
  (capability_errors
    ⟨none, none, none, none, none, false, false, false, false,
      none, none, none, none, none, none⟩ rfl rfl).1 rfl

/-- C8: a handle with no readiness hooks reports read-ready = true,
write-ready = true and except-ready = false (with no lock or hook
activity), and a handle with no condition-variable getter hooks gets none
(NULL) from all three getters. -/
theorem readiness_defaults (f : FOps) :
    (f.read_ready = none → vfs_read_ready f = some (true, [])) ∧
    (f.write_ready = none → vfs_write_ready f = some (true, [])) ∧
    (f.except_ready = none → vfs_except_ready f = some (false, [])) ∧
    (f.get_rready_cond = none → vfs_get_rready_cond f = none) ∧
    (f.get_wready_cond = none → vfs_get_wready_cond f = none) ∧
    (f.get_except_cond = none → vfs_get_except_cond f = none) :=
  ⟨fun h => by simp [vfs_read_ready, h], fun h => by simp [vfs_write_ready, h],
    fun h => by simp [vfs_except_ready, h], fun h => by simp [vfs_get_rready_cond, h],
    fun h => by simp [vfs_get_wready_cond, h], fun h => by simp [vfs_get_except_cond, h]⟩

theorem readiness_defaults_w :
    vfs_read_ready
        ⟨none, none, none, none, none, false, false, false, false,
          none, none, none, none, none, none⟩ = some (true, []) :=
  (readiness_defaults
    ⟨none, none, none, none, none, false, false, false, false,
      none, none, none, none, none, none⟩).1 rfl

/-- C9 as stated is false on the code: next_device_id is a u32 and wraps,
so call number 2^32 returns the same id as call number 0 and a smaller id
than its immediate predecessor. -/
theorem device_id_wraparound_cex :
    deviceId 4294967296 = deviceId 0 ∧ deviceId 4294967296 < deviceId 4294967295 := by
  have h1 := deviceState_eq 4294967296
  have h2 := deviceState_eq 4294967295
  constructor
  · show deviceState 4294967296 = deviceState 0
    rw [h1]
    norm_num [deviceState]
  · show deviceState 4294967296 < deviceState 4294967295
    rw [h1, h2]
    norm_num

/-- C9 amended: the ids are strictly increasing (hence pairwise distinct)
within any window of fewer than 2^32 calls from the initial state; beyond
that the u32 counter wraps and ids repeat. -/
theorem device_id_monotone_within_u32 (m n : Nat) (h : m < n) (hn : n < 4294967296) :
    deviceId m < deviceId n := by
  have h1 := deviceState_eq m
  have h2 := deviceState_eq n
  show deviceState m < deviceState n
  omega

theorem device_id_monotone_within_u32_w : deviceId 3 < deviceId 7 :=
  device_id_monotone_within_u32 3 7 (by norm_num) (by norm_num)

/-- C10: for well-formed C strings, every nonzero result m of
check_mountpoint_match is a length on which mp and path agree byte for
byte, and m is either mp's whole length or — contrary to the function's own
comment, which promises only strlen(mp) — mp's length minus one, in which
case the query path is exactly m bytes long. -/
theorem check_mountpoint_match_charact (mp path : List Nat)
    (hvm : validStr mp) (hvp : validStr path)
    (hm : check_mountpoint_match mp path ≠ 0) :
    mp.take (check_mountpoint_match mp path) =
      path.take (check_mountpoint_match mp path) ∧
    (check_mountpoint_match mp path = mp.length ∨
      (check_mountpoint_match mp path = mp.length - 1 ∧
        path.length = check_mountpoint_match mp path)) := by
  have hml : matchLen mp path ≤ mp.length := matchLen_le_left mp path
  have hmr : matchLen mp path ≤ path.length := matchLen_le_right mp path
  rw [check_mountpoint_match_eq] at hm ⊢
  by_cases h1 : cAt mp (matchLen mp path) ≠ 0
  · rw [if_pos h1] at hm ⊢
    by_cases h2 : cAt mp (matchLen mp path) = 47 ∧
        cAt mp (matchLen mp path + 1) = 0 ∧ cAt path (matchLen mp path) = 0
    · rw [if_pos h2] at hm ⊢
      have hlt : matchLen mp path < mp.length := (cAt_ne_zero_iff mp hvm _).mp h1
      have h3 : mp.length ≤ matchLen mp path + 1 := by
        by_contra hcon
        exact ((cAt_ne_zero_iff mp hvm (matchLen mp path + 1)).mpr (by omega)) h2.2.1
      have h4 : path.length ≤ matchLen mp path := by
        by_contra hcon
        exact ((cAt_ne_zero_iff path hvp (matchLen mp path)).mpr (by omega)) h2.2.2
      exact ⟨matchLen_take mp path, Or.inr ⟨by omega, by omega⟩⟩
    · rw [if_neg h2] at hm
      exact absurd rfl hm
  · rw [if_neg h1] at hm ⊢
    push_neg at h1
    have hge : mp.length ≤ matchLen mp path := by
      by_contra hcon
      exact ((cAt_ne_zero_iff mp hvm (matchLen mp path)).mpr (by omega)) h1
    by_cases h2 : cAt path (matchLen mp path - 1) ≠ 47 ∧
        cAt path (matchLen mp path - 1) ≠ 0
    · rw [if_pos h2] at hm
      exact absurd rfl hm
    · rw [if_neg h2] at hm ⊢
      exact ⟨matchLen_take mp path, Or.inl (by omega)⟩

theorem check_mountpoint_match_charact_w :
    (strChars "/dev/").take (check_mountpoint_match (strChars "/dev/") (strChars "/dev")) =
      (strChars "/dev").take (check_mountpoint_match (strChars "/dev/") (strChars "/dev")) ∧
    (check_mountpoint_match (strChars "/dev/") (strChars "/dev") = (strChars "/dev/").length ∨
      (check_mountpoint_match (strChars "/dev/") (strChars "/dev") =
          (strChars "/dev/").length - 1 ∧
        (strChars "/dev").length =
          check_mountpoint_match (strChars "/dev/") (strChars "/dev"))) :=
  check_mountpoint_match_charact (strChars "/dev/") (strChars "/dev")
    (by unfold validStr ; decide) (by unfold validStr ; decide) (by decide)

end Tilck
